import Mathlib

/-!
Shallow embedding of the bot-hosting backend (`app.py`): the entry point
resolver `find_bot_entry`, the credential scanner `extract_bot_token`, the
recipient scanner `extract_user_ids`, the process supervisor's start/stop
action branches, and the broadcast engine, together with theorems settling
the specification claims about them.
-/

namespace HostProMax

/-- A character accepted by the `[A-Za-z0-9_-]` class of the token pattern
`(\d{8,10}:[A-Za-z0-9_-]{35})` in `extract_bot_token` (`app.py` line 131).
The file contents relevant here are ASCII, where Python's character classes
agree with `Char.isAlphanum`/`Char.isDigit`. -/
def isSuffixChar (c : Char) : Bool :=
  c.isAlphanum || c == '_' || c == '-'

/-- Split off exactly `n` characters all satisfying `p`; `none` when fewer
than `n` such characters lead the list.  Building block for the regex
quantifiers `\d{8,10}` (via backtracking over the count) and
`[A-Za-z0-9_-]{35}`. -/
def splitExact (p : Char → Bool) : Nat → List Char → Option (List Char × List Char)
  | 0, cs => some ([], cs)
  | _ + 1, [] => none
  | n + 1, c :: cs =>
    if p c then (splitExact p n cs).map (fun pr => (c :: pr.1, pr.2)) else none

/-- Attempt the token pattern at the head of `cs` with a digit run of exactly
`d` characters: `d` digits, a colon, then exactly 35 suffix characters. -/
def tryTokenLen (d : Nat) (cs : List Char) : Option (List Char) :=
  match splitExact Char.isDigit d cs with
  | none => none
  | some (digs, r1) =>
    match r1 with
    | ':' :: r2 =>
      match splitExact isSuffixChar 35 r2 with
      | none => none
      | some (suf, _) => some (digs ++ ':' :: suf)
    | _ => none

/-- The token pattern anchored at the head of `cs`: the greedy quantifier
`\d{8,10}` tries 10 digits first, then backtracks to 9 and 8 — exactly the
order Python's regex engine uses. -/
def matchTokenAt (cs : List Char) : Option (List Char) :=
  match tryTokenLen 10 cs with
  | some m => some m
  | none =>
    match tryTokenLen 9 cs with
    | some m => some m
    | none => tryTokenLen 8 cs

/-- `re.search` of the token pattern: the leftmost position where the
anchored pattern matches wins. -/
def searchToken : List Char → Option String
  | [] => none
  | c :: cs =>
    match matchTokenAt (c :: cs) with
    | some m => some (String.mk m)
    | none => searchToken cs

/-- The candidate config-file names of `extract_bot_token`
(`app.py` line 132). -/
def files_to_check : List String :=
  ["config.env", ".env", "config.txt", "settings.py", "bot.py", "main.py"]

/-- `pat` occurs at the head of `s`. -/
def startsWithSeq : List Char → List Char → Bool
  | [], _ => true
  | _ :: _, [] => false
  | p :: ps, c :: cs => p == c && startsWithSeq ps cs

/-- Python's `str.endswith`: `suf` is a suffix of `s` (a suffix is a
reversed prefix). -/
def strEndsWith (s suf : String) : Bool :=
  startsWithSeq suf.toList.reverse s.toList.reverse

/-- `extract_bot_token` (`app.py` lines 129–145): scan the deployment's files
in directory-walk order (the walk flattened to a `(name, contents)` list,
which is faithful because this scan skips no directory); a file is inspected
when its name is in `files_to_check` or ends in `.py`; the first file whose
contents contain a token-pattern match decides, and no later file is read. -/
def extract_bot_token : List (String × String) → Option String
  | [] => none
  | (name, content) :: rest =>
    if files_to_check.contains name || strEndsWith name ".py" then
      match searchToken content.toList with
      | some t => some t
      | none => extract_bot_token rest
    else extract_bot_token rest

/-- Split off the maximal digit prefix. -/
def splitDigits : List Char → List Char × List Char
  | [] => ([], [])
  | c :: cs =>
    if c.isDigit then
      let pr := splitDigits cs
      (c :: pr.1, pr.2)
    else ([], c :: cs)

theorem splitDigits_snd_length (cs : List Char) :
    (splitDigits cs).2.length ≤ cs.length := by
  induction cs with
  | nil => simp [splitDigits]
  | cons c cs ih =>
    simp only [splitDigits]
    split
    · simpa using Nat.le_succ_of_le ih
    · simp

/-- The scan loop of `re.findall` for the recipient pattern `(-?\d{5,})`
(`app.py` line 151), with an explicit recursion budget: leftmost,
non-overlapping matches; an optional minus sign followed by a greedy digit
run of at least five digits.  A digit run shorter than five (with or
without sign) yields no match anywhere inside it, so the scan resumes after
the run — the same positions Python's engine would try and reject one by
one.  Every recursive call consumes at least one character, so a budget of
the input's length (`idFindall`) never runs out. -/
def idFindallAux : Nat → List Char → List String
  | 0, _ => []
  | _ + 1, [] => []
  | n + 1, '-' :: cs =>
    if 5 ≤ (splitDigits cs).1.length then
      String.mk ('-' :: (splitDigits cs).1) :: idFindallAux n (splitDigits cs).2
    else idFindallAux n cs
  | n + 1, c :: cs =>
    if c.isDigit then
      if 4 ≤ (splitDigits cs).1.length then
        String.mk (c :: (splitDigits cs).1) :: idFindallAux n (splitDigits cs).2
      else idFindallAux n (splitDigits cs).2
    else idFindallAux n cs

/-- `re.findall` of the recipient pattern `(-?\d{5,})` over one line. -/
def idFindall (cs : List Char) : List String := idFindallAux cs.length cs

/-- Python `set.add`: insert while preserving deduplication (the model keeps
insertion order; the claims only depend on the result as a set). -/
def setAdd (acc : List String) (x : String) : List String :=
  if acc.contains x then acc else acc ++ [x]

/-- The recipient-list filename allow-list of `extract_user_ids`
(`app.py` line 149). -/
def id_files : List String :=
  ["users.txt", "chats.txt", "ids.txt", "broadcast.txt"]

/-- Split file contents into lines at newline characters, mirroring
Python's line iteration for the purposes of the id scan: no id-pattern
match can span a newline, so scanning the pieces equals scanning the
lines. -/
def splitLines : List Char → List (List Char)
  | [] => [[]]
  | c :: cs =>
    if c = '\n' then [] :: splitLines cs
    else
      match splitLines cs with
      | [] => [[c]]
      | l :: ls => (c :: l) :: ls

/-- One line of the id scan: add every `(-?\d{5,})` match of the line to the
accumulated set. -/
def scanLine (acc : List String) (line : List Char) : List String :=
  (idFindall line).foldl setAdd acc

/-- One file of the id scan (`app.py` lines 154–163): only files on the
allow-list are read; a file is scanned line by line. -/
def scanFile (acc : List String) (pr : String × String) : List String :=
  if id_files.contains pr.1 then (splitLines pr.2.toList).foldl scanLine acc
  else acc

/-- `extract_user_ids` (`app.py` lines 147–165): over the walk's files (as
`(name, contents)`), the files whose name is on the allow-list are read line
by line and every `(-?\d{5,})` match is added to a deduplicated set. -/
def extract_user_ids (files : List (String × String)) : List String :=
  files.foldl scanFile []

/-- The shape every extracted recipient id must have: an optional leading
minus sign followed by at least five digits, and nothing else. -/
def validId (s : String) : Bool :=
  match s.toList with
  | '-' :: ds => decide (5 ≤ ds.length) && ds.all Char.isDigit
  | ds => decide (5 ≤ ds.length) && ds.all Char.isDigit

/-- The ordered priority-name list of `find_bot_entry` (`app.py` line 106):
`main.py` first, then `bot.py`, then `app.py`. -/
def priority_files : List String :=
  ["main.py", "bot.py", "app.py", "index.py", "start.py", "run.py"]

/-- `pat` occurs contiguously somewhere inside `s` — the Python `in`
operator on strings. -/
def hasSeq (pat : List Char) : List Char → Bool
  | [] => startsWithSeq pat []
  | c :: cs => startsWithSeq pat (c :: cs) || hasSeq pat cs

/-- The walk-skip test of `find_bot_entry` (`app.py` line 116): a visited
directory is skipped when its path string contains `__pycache__` or
`.git`. -/
def pathHasSkipMarker (p : String) : Bool :=
  hasSeq "__pycache__".toList p.toList || hasSeq ".git".toList p.toList

/-- `os.path.join` for the paths appearing here. -/
def joinPath (a b : String) : String := a ++ "/" ++ b

/-- The `os.walk` loop of `find_bot_entry` (`app.py` lines 115–125).  A walk
is the visited directories in order, each with its file-name list.  A
skipped directory contributes nothing; otherwise the first priority name
present in the directory wins, and failing that the first `.py` file of that
same directory wins, before any later directory is considered. -/
def walkSearch : List (String × List String) → Option (String × String)
  | [] => none
  | (p, fs) :: rest =>
    if pathHasSkipMarker p then walkSearch rest
    else
      match priority_files.find? (fun f => fs.contains f) with
      | some f => some (joinPath p f, p)
      | none =>
        match fs.find? (fun f => strEndsWith f ".py") with
        | some f => some (joinPath p f, p)
        | none => walkSearch rest

/-- `find_bot_entry` (`app.py` lines 104–127): first the priority names are
probed directly under the root (`os.path.exists`, modelled as membership in
the root's entry list), the first hit returning immediately; only when none
is present does the recursive walk run.  Returns `(script path, working
directory)` or `none` (the "No Python script found" outcome). -/
def find_bot_entry (root : String) (rootFiles : List String)
    (walk : List (String × List String)) : Option (String × String) :=
  match priority_files.find? (fun f => rootFiles.contains f) with
  | some f => some (joinPath root f, root)
  | none => walkSearch walk

/-- Result of the `start` branch of `/action` (`app.py` lines 346–373). -/
inductive StartResult where
  | alreadyRunning
  | noScript
  | spawnFailed
  | started (pid : Nat)
deriving DecidableEq

/-- The tail of the `start` branch past the liveness guard (`app.py` lines
350–373): resolve the entry point (404 when `none`), then spawn; on `Popen`
success the fresh pid is stored under the key. -/
def startProceed (registry : List (String × Nat)) (pid_key : String)
    (entry : Option (String × String)) (spawn : Option Nat) :
    StartResult × List (String × Nat) × List Nat :=
  match entry with
  | none => (.noScript, registry, [])
  | some _ =>
    match spawn with
    | none => (.spawnFailed, registry, [])
    | some pid =>
      (.started pid, (pid_key, pid) :: registry.filter (fun kv => kv.1 ≠ pid_key), [pid])

/-- The `start` branch of `/action` (`app.py` lines 346–373).  The registry
is the in-memory `running_processes` dict as a key/pid association list;
`alive pid` is the current OS state probed by `poll() is None`; `entry` is
the resolver's outcome for this deployment; `spawn` is `some pid` when the
OS grants `Popen` a fresh process and `none` when `Popen` raises.  Returns
the result, the registry afterwards, and the pids actually spawned. -/
def startAction (registry : List (String × Nat)) (alive : Nat → Bool)
    (pid_key : String) (entry : Option (String × String)) (spawn : Option Nat) :
    StartResult × List (String × Nat) × List Nat :=
  match registry.lookup pid_key with
  | some pid =>
    if alive pid then (.alreadyRunning, registry, [])
    else startProceed registry pid_key entry spawn
  | none => startProceed registry pid_key entry spawn

/-- Result of the `stop` branch of `/action` (`app.py` lines 376–386). -/
inductive StopResult where
  | notRunning
  | stopped
deriving DecidableEq

/-- A signal the supervisor sends to a child process. -/
inductive Sig where
  | term (pid : Nat)
  | kill (pid : Nat)
deriving DecidableEq

/-- The `stop` branch of `/action` (`app.py` lines 376–386).  `alive` is the
OS liveness state (available through `poll`, which this branch never
consults); `exitsWithin3s pid` tells whether `wait(timeout=3)` returns
before the timeout.  A registered handle is terminated, waited on for up to
3 seconds, killed when the wait times out, and deleted from the registry;
an unregistered key yields the "Not running" error. -/
def stopAction (registry : List (String × Nat)) (_alive : Nat → Bool)
    (exitsWithin3s : Nat → Bool) (pid_key : String) :
    StopResult × List (String × Nat) × List Sig :=
  match registry.lookup pid_key with
  | none => (.notRunning, registry, [])
  | some pid =>
    let sigs := if exitsWithin3s pid then [Sig.term pid] else [Sig.term pid, Sig.kill pid]
    (.stopped, registry.filter (fun kv => kv.1 ≠ pid_key), sigs)

/-- One deployment directory entry under the storage root, as `/broadcast`
sees it: its `os.listdir` name, whether it is a directory, and its files in
walk order (shared by the token scan and the id scan). -/
structure Project where
  name : String
  isDir : Bool
  files : List (String × String)

/-- One iteration of the discovery loop of `/broadcast` (`app.py` lines
429–445): when `target_apps` is a nonempty list, an entry whose name is not
in it is skipped; a remaining directory contributes its token (the first one
discovered across the iteration is kept) and its recipient ids (accumulated
as a deduplicated set). -/
def discoverStep (target_apps : List String) (acc : Option String × List String)
    (p : Project) : Option String × List String :=
  if !target_apps.isEmpty && !target_apps.contains p.name then acc
  else if p.isDir then
    let tok :=
      match acc.1 with
      | some t => some t
      | none => extract_bot_token p.files
    (tok, (extract_user_ids p.files).foldl setAdd acc.2)
  else acc

/-- The discovery stage of `/broadcast` (`app.py` lines 425–445): fold the
loop body over the storage listing, starting from no token and no
recipients. -/
def discover (storage : List Project) (target_apps : List String) :
    Option String × List String :=
  storage.foldl (discoverStep target_apps) (none, [])

/-- The batch-slicing loop of `/broadcast` (`app.py` lines 467–469),
`range(0, len(tasks), batch_size)` with `tasks[i:i+batch_size]`, carried by
an explicit recursion budget: each iteration drops `bs ≥ 1` elements, so a
budget of the list's length (`sliceBatches`) never runs out. -/
def sliceBatchesAux (bs : Nat) : Nat → List α → List (List α)
  | 0, _ => []
  | n + 1, ts =>
    if ts.isEmpty || bs == 0 then []
    else ts.take bs :: sliceBatchesAux bs n (ts.drop bs)

/-- Partition `ts` into slices of `bs` (the last one possibly shorter). -/
def sliceBatches (bs : Nat) (ts : List α) : List (List α) :=
  sliceBatchesAux bs ts.length ts

/-- The tallying loop of `/broadcast` (`app.py` lines 470–476): per batch,
each recipient's request outcome bumps the success or the failure counter.
`outcome uid` is the external API's verdict for that recipient's request. -/
def dispatch (outcome : String → Bool) (uids : List String) : Nat × Nat :=
  (sliceBatches 30 uids).foldl
    (fun acc batch =>
      batch.foldl
        (fun acc2 uid => if outcome uid then (acc2.1 + 1, acc2.2) else (acc2.1, acc2.2 + 1))
        acc)
    (0, 0)

/-- The hard errors `/broadcast` can return before dispatch (`app.py` lines
420–421, 447–451): missing text (400), "No bot token found in uploaded
projects to send messages!" (400), "No users found in users.txt or
chats.txt files!" (400). -/
inductive BroadcastError where
  | noText
  | noToken
  | noUsers
deriving DecidableEq

/-- The aggregate `/broadcast` returns on success (`app.py` lines 486–491). -/
structure BroadcastResult where
  total : Nat
  success : Nat
  failed : Nat
deriving DecidableEq

/-- One row of `broadcast_history` as the insert at `app.py` lines 480–481
writes it; the table's `timestamp` column is filled by the database default
`CURRENT_TIMESTAMP` and is outside this model. -/
structure HistoryRecord where
  project_name : String
  sent_count : Nat
  failed_count : Nat
deriving DecidableEq

/-- Everything observable about one `/broadcast` call: the response, the
recipients an outbound request was issued for (in batch order), and the
history rows written. -/
structure BroadcastOutcome where
  response : Except BroadcastError BroadcastResult
  requests : List String
  history : List HistoryRecord

/-- `/broadcast` (`app.py` lines 410–491).  After the text check, discovery
runs over the storage listing restricted to `target_apps` (an empty list
means no restriction); a missing token or an empty recipient set is a hard
error with no request issued and no history written; otherwise one request
per discovered recipient is issued in batches of 30, the outcomes are
tallied, one history row `("Global Broadcast", success, failed)` is written,
and the aggregate with `total = ` the recipient-set size is returned. -/
def broadcast (storage : List Project) (text : String)
    (target_apps : List String) (outcome : String → Bool) : BroadcastOutcome :=
  if text = "" then ⟨.error .noText, [], []⟩
  else
    let disc := discover storage target_apps
    match disc.1 with
    | none => ⟨.error .noToken, [], []⟩
    | some _ =>
      if disc.2.isEmpty then ⟨.error .noUsers, [], []⟩
      else
        let counts := dispatch outcome disc.2
        ⟨.ok ⟨disc.2.length, counts.1, counts.2⟩,
         (sliceBatches 30 disc.2).flatten,
         [⟨"Global Broadcast", counts.1, counts.2⟩]⟩

/-- A well-formed token for concrete test fixtures: 8 digits, a colon and a
35-character suffix. -/
def sampleToken : String := "12345678:" ++ String.mk (List.replicate 35 'a')

/-- A one-deployment storage fixture: a directory with a token in `bot.py`
and two recipients in `users.txt`. -/
def sampleStorage : List Project :=
  [⟨"alpha", true, [("bot.py", sampleToken), ("users.txt", "11111\n22222")]⟩]

/-- A storage fixture whose single deployment has a token but no recipient
file. -/
def tokenOnlyStorage : List Project :=
  [⟨"alpha", true, [("bot.py", sampleToken)]⟩]

/-- The token string of the specification's token-scan test property: a
9-digit run, a colon, and a 36-character suffix. -/
def specTokenInput : String := "123456789:AAABBBCCCDDDEEEFFFGGGHHHIIIJJJKKKLLL"

/-- `specTokenInput` shortened by its final character: the digit run, the
colon, and the first 35 suffix characters — the longest string the
35-character class quantifier of the token pattern can take. -/
def truncatedToken : String := "123456789:AAABBBCCCDDDEEEFFFGGGHHHIIIJJJKKKLL"

theorem lookup_filter_ne_eq_none (l : List (String × Nat)) (k : String) :
    (l.filter (fun kv => kv.1 ≠ k)).lookup k = none := by
  induction l with
  | nil => rfl
  | cons kv t ih =>
    by_cases h : kv.1 = k
    · simpa [List.filter_cons, h] using ih
    · have hb : (k == kv.1) = false := by
        rw [beq_eq_false_iff_ne]
        exact Ne.symm h
      simp [List.filter_cons, h, List.lookup, hb, ih]
      exact fun a b _ hak hka => hak hka.symm

/-- C3: a deployment key whose registered handle's process is still alive —
liveness probed against the OS state (`poll`), not a cached flag — makes
`start` answer `AlreadyRunning`; no process is spawned and the registry is
returned unchanged. -/
theorem start_already_running (registry : List (String × Nat)) (alive : Nat → Bool)
    (pid_key : String) (entry : Option (String × String)) (spawn : Option Nat)
    (pid : Nat) (hreg : registry.lookup pid_key = some pid)
    (halive : alive pid = true) :
    startAction registry alive pid_key entry spawn =
      (StartResult.alreadyRunning, registry, []) := by
  simp [startAction, hreg, halive]

theorem start_already_running_witness :
    startAction [("proc_a", 7)] (fun _ => true) "proc_a" none none =
      (StartResult.alreadyRunning, [("proc_a", 7)], []) :=
  start_already_running [("proc_a", 7)] (fun _ => true) "proc_a" none none 7 rfl rfl

/-- C4 counterexample: a registered handle whose process has already exited
(the OS liveness oracle answers `false` for its pid) is not rejected with
`NotRunning`: the stop branch never probes liveness, so it reports a
successful stop instead. -/
theorem stop_dead_handle_counterexample :
    (stopAction [("proc_a", 7)] (fun _ => false) (fun _ => true) "proc_a").1 =
      StopResult.stopped ∧
    (stopAction [("proc_a", 7)] (fun _ => false) (fun _ => true) "proc_a").1 ≠
      StopResult.notRunning :=
  ⟨rfl, by decide⟩

/-- C4 amended: `stop(key)` fails with `NotRunning` exactly when no handle is
registered under the key — liveness is never consulted, so a registered
handle whose process has already exited is "stopped" normally; a registered
handle receives the graceful terminate signal first, receives a kill exactly
when the 3-second wait times out, and is unconditionally removed from the
registry. -/
theorem stop_semantics (registry : List (String × Nat)) (alive : Nat → Bool)
    (ew : Nat → Bool) (pid_key : String) :
    (registry.lookup pid_key = none →
      stopAction registry alive ew pid_key = (StopResult.notRunning, registry, [])) ∧
    (∀ pid, registry.lookup pid_key = some pid →
      (stopAction registry alive ew pid_key).1 = StopResult.stopped ∧
      (stopAction registry alive ew pid_key).2.1.lookup pid_key = none ∧
      (stopAction registry alive ew pid_key).2.2.head? = some (Sig.term pid) ∧
      (Sig.kill pid ∈ (stopAction registry alive ew pid_key).2.2 ↔ ew pid = false)) := by
  constructor
  · intro h
    simp [stopAction, h]
  · intro pid h
    have e : stopAction registry alive ew pid_key =
        (StopResult.stopped, registry.filter (fun kv => kv.1 ≠ pid_key),
         if ew pid then [Sig.term pid] else [Sig.term pid, Sig.kill pid]) := by
      simp [stopAction, h]
    rw [e]
    refine ⟨rfl, lookup_filter_ne_eq_none registry pid_key, ?_, ?_⟩
    · by_cases he : ew pid <;> simp [he]
    · by_cases he : ew pid <;> simp [he]

theorem stop_semantics_witness :
    stopAction [] (fun _ => true) (fun _ => true) "proc_a" =
      (StopResult.notRunning, [], []) ∧
    (stopAction [("proc_a", 7)] (fun _ => true) (fun _ => false) "proc_a").1 =
      StopResult.stopped :=
  ⟨(stop_semantics [] (fun _ => true) (fun _ => true) "proc_a").1 rfl,
   ((stop_semantics [("proc_a", 7)] (fun _ => true) (fun _ => false) "proc_a").2 7 rfl).1⟩

/-- C5 counterexample: with both `app.py` and `bot.py` directly under the
root, the resolver returns `bot.py`: the priority order the code checks is
`main, bot, app, index, start, run`, not `main, app, bot, index, start,
run` as the claim states, so the claimed order would pick `app.py` here. -/
theorem resolver_order_counterexample :
    find_bot_entry "r" ["app.py", "bot.py"] [("r", ["app.py", "bot.py"])] =
      some ("r/bot.py", "r") ∧
    find_bot_entry "r" ["app.py", "bot.py"] [("r", ["app.py", "bot.py"])] ≠
      some ("r/app.py", "r") :=
  ⟨rfl, by decide⟩

/-- C5 amended: the fixed ordered priority list is `main, bot, app, index,
start, run` (with the `.py` extension), checked directly under the root;
the first hit is returned immediately and a root-level hit always wins over
any nested file, whatever the walk below contains.  In particular a root
`bot.py` wins whenever `main.py` is absent from the root — even over a
root-level or nested `app.py`. -/
theorem resolver_root_priority (root : String) (rootFiles : List String)
    (walk : List (String × List String))
    (hmain : "main.py" ∉ rootFiles) (hbot : "bot.py" ∈ rootFiles) :
    find_bot_entry root rootFiles walk = some (joinPath root "bot.py", root) := by
  simp [find_bot_entry, priority_files, List.find?, hmain, hbot]

theorem resolver_root_priority_witness :
    find_bot_entry "r" ["bot.py"]
        [("r", ["bot.py"]), ("r/a", []), ("r/a/b", ["main.py"])] =
      some (joinPath "r" "bot.py", "r") :=
  resolver_root_priority "r" ["bot.py"]
    [("r", ["bot.py"]), ("r/a", []), ("r/a/b", ["main.py"])]
    (by decide) (by decide)

/-- C7 counterexample: on a file holding exactly the 46-character string
`123456789:AAABBBCCCDDDEEEFFFGGGHHHIIIJJJKKKLLL` (a 36-character suffix),
the scan does not extract that full string: the suffix class of the token
pattern is bounded at 35 characters, so the match drops the final
character. -/
theorem token_scan_counterexample :
    extract_bot_token [("bot.py", specTokenInput)] ≠ some specTokenInput ∧
    extract_bot_token [("bot.py", specTokenInput)] = some truncatedToken :=
  ⟨by decide, rfl⟩

/-- C7 amended: on a candidate file holding exactly that 46-character string
the scan extracts its 45-character prefix — the digit run, the colon and the
first 35 suffix characters, i.e. the input minus its final character — and
no other string, returning this first match and scanning no file after the
one that matched. -/
theorem token_scan_first_match (rest : List (String × String)) :
    extract_bot_token (("bot.py", specTokenInput) :: rest) = some truncatedToken := rfl

theorem priority_endsWith_py : ∀ f ∈ priority_files, strEndsWith f ".py" = true := by
  decide

theorem walkSearch_cons (p : String) (fs : List String)
    (rest : List (String × List String)) :
    walkSearch ((p, fs) :: rest) =
      if pathHasSkipMarker p then walkSearch rest
      else
        match priority_files.find? (fun f => fs.contains f) with
        | some f => some (joinPath p f, p)
        | none =>
          match fs.find? (fun f => strEndsWith f ".py") with
          | some f => some (joinPath p f, p)
          | none => walkSearch rest := rfl

theorem walkSearch_eq_none_iff (walk : List (String × List String)) :
    walkSearch walk = none ↔
      ∀ e ∈ walk, pathHasSkipMarker e.1 = true ∨ ∀ f ∈ e.2, strEndsWith f ".py" = false := by
  induction walk with
  | nil => simp [walkSearch]
  | cons e rest ih =>
    obtain ⟨p, fs⟩ := e
    rw [walkSearch_cons]
    by_cases hskip : pathHasSkipMarker p
    · rw [if_pos hskip, ih]
      constructor
      · intro h e he
        rcases List.mem_cons.mp he with rfl | he'
        · exact Or.inl hskip
        · exact h e he'
      · intro h e he
        exact h e (List.mem_cons_of_mem _ he)
    · rw [if_neg hskip]
      cases hpri : priority_files.find? (fun f => fs.contains f) with
      | some f =>
        constructor
        · intro h
          cases h
        · intro h
          exfalso
          have hf_mem : f ∈ priority_files := List.mem_of_find?_eq_some hpri
          have hf_in : f ∈ fs := by simpa using List.find?_some hpri
          have hf_py : strEndsWith f ".py" = true := priority_endsWith_py f hf_mem
          rcases h (p, fs) (List.mem_cons_self _ _) with hs | hall
          · exact hskip hs
          · have := hall f hf_in
            rw [hf_py] at this
            cases this
      | none =>
        cases hfb : fs.find? (fun f => strEndsWith f ".py") with
        | some g =>
          constructor
          · intro h
            cases h
          · intro h
            exfalso
            have hg_in : g ∈ fs := List.mem_of_find?_eq_some hfb
            have hg_py : strEndsWith g ".py" = true := by
              simpa using List.find?_some hfb
            rcases h (p, fs) (List.mem_cons_self _ _) with hs | hall
            · exact hskip hs
            · have := hall g hg_in
              rw [hg_py] at this
              cases this
        | none =>
          show walkSearch rest = none ↔ _
          rw [ih]
          have hnofs : ∀ f ∈ fs, strEndsWith f ".py" = false := by
            intro f hf
            have := List.find?_eq_none.mp hfb f hf
            simpa using this
          constructor
          · intro h e he
            rcases List.mem_cons.mp he with rfl | he'
            · exact Or.inr hnofs
            · exact h e he'
          · intro h e he
            exact h e (List.mem_cons_of_mem _ he)

/-- C6 counterexample: with no root-level priority hit, a non-priority
`helper.py` in the first visited directory pre-empts a priority `main.py`
one directory deeper in the walk — the `.py` fallback is applied inside each
visited directory, not only after the whole walk has found no priority
name, so the claimed whole-walk preference would have picked
`r/s/main.py`. -/
theorem resolver_walk_counterexample :
    find_bot_entry "r" ["helper.py"] [("r", ["helper.py"]), ("r/s", ["main.py"])] =
      some ("r/helper.py", "r") ∧
    find_bot_entry "r" ["helper.py"] [("r", ["helper.py"]), ("r/s", ["main.py"])] ≠
      some ("r/s/main.py", "r/s") :=
  ⟨rfl, by decide⟩

/-- C6 amended: with no root-level priority hit, the resolver walks the
subtree skipping directories whose path contains `__pycache__` or `.git`;
inside each visited directory the priority names are preferred, but the
fallback to any `.py` file is applied per directory — the first non-skipped
directory containing any `.py` file decides, pre-empting priority names
deeper in the walk; the resolver fails (`NotFound`) exactly when every
visited directory is skipped or holds no `.py` file. -/
theorem resolver_walk_semantics :
    (∀ (p : String) (fs : List String) (rest : List (String × List String)),
      pathHasSkipMarker p = true → walkSearch ((p, fs) :: rest) = walkSearch rest) ∧
    (∀ (p : String) (fs : List String) (rest : List (String × List String)),
      pathHasSkipMarker p = false → (∃ f ∈ fs, strEndsWith f ".py" = true) →
      ∃ g, walkSearch ((p, fs) :: rest) = some (joinPath p g, p)) ∧
    (∀ (root : String) (rootFiles : List String) (walk : List (String × List String)),
      priority_files.find? (fun f => rootFiles.contains f) = none →
      (find_bot_entry root rootFiles walk = none ↔
        ∀ e ∈ walk, pathHasSkipMarker e.1 = true ∨ ∀ f ∈ e.2, strEndsWith f ".py" = false)) := by
  refine ⟨?_, ?_, ?_⟩
  · intro p fs rest h
    rw [walkSearch_cons, if_pos h]
  · intro p fs rest hskip hex
    have hskip' : ¬pathHasSkipMarker p = true := by simp [hskip]
    rw [walkSearch_cons, if_neg hskip']
    cases hpri : priority_files.find? (fun f => fs.contains f) with
    | some f => exact ⟨f, rfl⟩
    | none =>
      cases hfb : fs.find? (fun f => strEndsWith f ".py") with
      | some g => exact ⟨g, rfl⟩
      | none =>
        exfalso
        obtain ⟨f, hf, hpy⟩ := hex
        have := List.find?_eq_none.mp hfb f hf
        simp [hpy] at this
  · intro root rootFiles walk hpri
    unfold find_bot_entry
    rw [hpri]
    exact walkSearch_eq_none_iff walk

theorem resolver_walk_semantics_witness :
    walkSearch [("r/__pycache__", ["x.py"]), ("r", ["go.py"])] =
      walkSearch [("r", ["go.py"])] ∧
    (∃ g, walkSearch [("r", ["helper.py"]), ("r/s", ["main.py"])] =
      some (joinPath "r" g, "r")) ∧
    (find_bot_entry "r" ["readme.md"] [("r", ["readme.md"]), ("r/.git", ["main.py"])] = none ↔
      ∀ e ∈ [("r", ["readme.md"]), ("r/.git", ["main.py"])],
        pathHasSkipMarker e.1 = true ∨ ∀ f ∈ e.2, strEndsWith f ".py" = false) :=
  ⟨resolver_walk_semantics.1 "r/__pycache__" ["x.py"] [("r", ["go.py"])] (by decide),
   resolver_walk_semantics.2.1 "r" ["helper.py"] [("r/s", ["main.py"])] (by decide)
     ⟨"helper.py", by decide, by decide⟩,
   resolver_walk_semantics.2.2 "r" ["readme.md"]
     [("r", ["readme.md"]), ("r/.git", ["main.py"])] (by decide)⟩

theorem splitDigits_fst_digits (cs : List Char) :
    ∀ c ∈ (splitDigits cs).1, c.isDigit = true := by
  induction cs with
  | nil => simp [splitDigits]
  | cons c cs ih =>
    by_cases h : c.isDigit
    · simp only [splitDigits, h, if_true]
      intro x hx
      rcases List.mem_cons.mp hx with rfl | hx'
      · exact h
      · exact ih x hx'
    · simp [splitDigits, h]

theorem validId_minus_digits (ds : List Char) (h5 : 5 ≤ ds.length)
    (hd : ∀ c ∈ ds, c.isDigit = true) : validId (String.mk ('-' :: ds)) = true := by
  have e : validId (String.mk ('-' :: ds)) =
      (decide (5 ≤ ds.length) && ds.all Char.isDigit) := rfl
  rw [e, Bool.and_eq_true]
  exact ⟨by simpa using h5, List.all_eq_true.mpr hd⟩

theorem validId_of_digits (ds : List Char) (h5 : 5 ≤ ds.length)
    (hd : ∀ c ∈ ds, c.isDigit = true) : validId (String.mk ds) = true := by
  unfold validId
  have ht : (String.mk ds).toList = ds := rfl
  rw [ht]
  split
  · rename_i ds1
    exact absurd (hd '-' (List.mem_cons_self _ _)) (by decide)
  · rw [Bool.and_eq_true]
    exact ⟨by simpa using h5, List.all_eq_true.mpr hd⟩

theorem idFindallAux_valid (n : Nat) :
    ∀ (cs : List Char), ∀ s ∈ idFindallAux n cs, validId s = true := by
  induction n with
  | zero =>
    intro cs s hs
    rw [idFindallAux.eq_1] at hs
    simp at hs
  | succ n ih =>
    intro cs s hs
    cases cs with
    | nil =>
      rw [idFindallAux.eq_2] at hs
      simp at hs
    | cons c cs' =>
      by_cases hc : c = '-'
      · subst hc
        rw [idFindallAux.eq_3] at hs
        by_cases h5 : 5 ≤ (splitDigits cs').1.length
        · rw [if_pos h5] at hs
          rcases List.mem_cons.mp hs with rfl | hs'
          · exact validId_minus_digits _ h5 (splitDigits_fst_digits cs')
          · exact ih _ s hs'
        · rw [if_neg h5] at hs
          exact ih _ s hs
      · rw [idFindallAux.eq_4 n c cs' (fun h => hc h)] at hs
        by_cases hd : c.isDigit
        · rw [if_pos hd] at hs
          by_cases h4 : 4 ≤ (splitDigits cs').1.length
          · rw [if_pos h4] at hs
            rcases List.mem_cons.mp hs with rfl | hs'
            · apply validId_of_digits
              · simp only [List.length_cons]
                omega
              · intro x hx
                rcases List.mem_cons.mp hx with rfl | hx'
                · exact hd
                · exact splitDigits_fst_digits cs' x hx'
            · exact ih _ s hs'
          · rw [if_neg h4] at hs
            exact ih _ s hs
        · rw [if_neg hd] at hs
          exact ih _ s hs

theorem idFindall_valid (cs : List Char) : ∀ s ∈ idFindall cs, validId s = true :=
  idFindallAux_valid cs.length cs

theorem setAdd_nodup (l : List String) (x : String) (h : l.Nodup) :
    (setAdd l x).Nodup := by
  unfold setAdd
  split
  · exact h
  · rename_i hc
    have hx : x ∉ l := by simpa using hc
    simp [List.nodup_append, h, hx]

theorem mem_setAdd (l : List String) (x s : String) (h : s ∈ setAdd l x) :
    s ∈ l ∨ s = x := by
  unfold setAdd at h
  split at h
  · exact Or.inl h
  · rcases List.mem_append.mp h with h' | h'
    · exact Or.inl h'
    · exact Or.inr (by simpa using h')

theorem foldl_setAdd_nodup (xs acc : List String) (h : acc.Nodup) :
    (xs.foldl setAdd acc).Nodup := by
  induction xs generalizing acc with
  | nil => exact h
  | cons x xs ih => exact ih _ (setAdd_nodup _ _ h)

theorem mem_foldl_setAdd (xs acc : List String) (s : String)
    (h : s ∈ xs.foldl setAdd acc) : s ∈ acc ∨ s ∈ xs := by
  induction xs generalizing acc with
  | nil => exact Or.inl h
  | cons x xs ih =>
    rcases ih _ h with h' | h'
    · rcases mem_setAdd _ _ _ h' with h'' | h''
      · exact Or.inl h''
      · exact Or.inr (h'' ▸ List.mem_cons_self _ _)
    · exact Or.inr (List.mem_cons_of_mem _ h')

theorem lines_foldl_nodup (lines : List (List Char)) (acc : List String)
    (h : acc.Nodup) : (lines.foldl scanLine acc).Nodup := by
  induction lines generalizing acc with
  | nil => exact h
  | cons l ls ih => exact ih _ (foldl_setAdd_nodup _ _ h)

theorem lines_foldl_valid (lines : List (List Char)) (acc : List String)
    (h : ∀ s ∈ acc, validId s = true) :
    ∀ s ∈ lines.foldl scanLine acc, validId s = true := by
  induction lines generalizing acc with
  | nil => exact h
  | cons l ls ih =>
    refine ih _ ?_
    intro s hs
    rcases mem_foldl_setAdd _ _ _ hs with h' | h'
    · exact h s h'
    · exact idFindall_valid _ s h'

theorem scanFile_nodup (acc : List String) (pr : String × String)
    (h : acc.Nodup) : (scanFile acc pr).Nodup := by
  unfold scanFile
  split
  · exact lines_foldl_nodup _ _ h
  · exact h

theorem scanFile_valid (acc : List String) (pr : String × String)
    (h : ∀ s ∈ acc, validId s = true) :
    ∀ s ∈ scanFile acc pr, validId s = true := by
  unfold scanFile
  split
  · exact lines_foldl_valid _ _ h
  · exact h

theorem files_foldl_nodup (files : List (String × String)) (acc : List String)
    (h : acc.Nodup) : (files.foldl scanFile acc).Nodup := by
  induction files generalizing acc with
  | nil => exact h
  | cons f fs ih => exact ih _ (scanFile_nodup _ _ h)

theorem files_foldl_valid (files : List (String × String)) (acc : List String)
    (h : ∀ s ∈ acc, validId s = true) :
    ∀ s ∈ files.foldl scanFile acc, validId s = true := by
  induction files generalizing acc with
  | nil => exact h
  | cons f fs ih => exact ih _ (scanFile_valid _ _ h)

/-- C8: the recipient scan over the allow-listed files returns a
deduplicated collection whose every member is an optionally-minus-signed
run of at least five digits; on the specification's example lines it yields
exactly the set `{"987654321", "-1001234567890"}` — `42` is excluded for
being under the minimum digit length. -/
theorem recipient_scan_semantics (files : List (String × String)) :
    (extract_user_ids files).Nodup ∧
    (∀ s ∈ extract_user_ids files, validId s = true) ∧
    (extract_user_ids
        [("users.txt", "id=987654321\nnote 42\n-1001234567890")]).toFinset =
      {"987654321", "-1001234567890"} := by
  refine ⟨?_, ?_, ?_⟩
  · exact files_foldl_nodup files [] List.nodup_nil
  · exact files_foldl_valid files [] (by simp)
  · rfl

theorem recipient_scan_semantics_witness :
    (extract_user_ids
      [("users.txt", "id=987654321\nnote 42\n-1001234567890")]).Nodup ∧
    validId "987654321" = true ∧
    (extract_user_ids
        [("users.txt", "id=987654321\nnote 42\n-1001234567890")]).toFinset =
      {"987654321", "-1001234567890"} :=
  ⟨(recipient_scan_semantics
      [("users.txt", "id=987654321\nnote 42\n-1001234567890")]).1,
   (recipient_scan_semantics
      [("users.txt", "id=987654321\nnote 42\n-1001234567890")]).2.1
     "987654321" (by decide),
   (recipient_scan_semantics []).2.2⟩

theorem sliceBatchesAux_congr (bs : Nat) :
    ∀ (n m : Nat) (ts : List α), ts.length ≤ n → ts.length ≤ m →
      sliceBatchesAux bs n ts = sliceBatchesAux bs m ts := by
  intro n
  induction n with
  | zero =>
    intro m ts h1 _
    have hts : ts = [] := List.eq_nil_of_length_eq_zero (Nat.le_zero.mp h1)
    subst hts
    cases m with
    | zero => rfl
    | succ m => simp [sliceBatchesAux]
  | succ n ih =>
    intro m ts h1 h2
    cases m with
    | zero =>
      have hts : ts = [] := List.eq_nil_of_length_eq_zero (Nat.le_zero.mp h2)
      subst hts
      simp [sliceBatchesAux]
    | succ m =>
      simp only [sliceBatchesAux]
      by_cases hc : (ts.isEmpty || bs == 0) = true
      · rw [if_pos hc, if_pos hc]
      · rw [if_neg hc, if_neg hc]
        have hts : ts ≠ [] := by
          intro e
          exact hc (by simp [e])

        have hbs : bs ≠ 0 := by
          intro e
          exact hc (by simp [e])
        have hlen : 0 < ts.length := List.length_pos.mpr hts
        have hdrop : (ts.drop bs).length ≤ n := by
          simp only [List.length_drop]
          omega
        have hdrop2 : (ts.drop bs).length ≤ m := by
          simp only [List.length_drop]
          omega
        rw [ih m (ts.drop bs) hdrop hdrop2]

theorem sliceBatches_nil (bs : Nat) : sliceBatches bs ([] : List α) = [] := rfl

theorem sliceBatches_cons (bs : Nat) (hbs : bs ≠ 0) (ts : List α) (hts : ts ≠ []) :
    sliceBatches bs ts = ts.take bs :: sliceBatches bs (ts.drop bs) := by
  obtain ⟨a, ts', rfl⟩ := List.exists_cons_of_ne_nil hts
  show sliceBatchesAux bs (ts'.length + 1) (a :: ts') = _
  rw [sliceBatchesAux]
  rw [if_neg (by simp [hbs])]
  congr 1
  exact sliceBatchesAux_congr bs ts'.length ((a :: ts').drop bs).length ((a :: ts').drop bs)
    (by simp only [List.length_drop, List.length_cons]; omega) le_rfl

theorem sliceBatches_flatten (bs : Nat) (hbs : bs ≠ 0) :
    ∀ (n : Nat) (ts : List String), ts.length ≤ n → (sliceBatches bs ts).flatten = ts := by
  intro n
  induction n with
  | zero =>
    intro ts h
    have hts : ts = [] := List.eq_nil_of_length_eq_zero (Nat.le_zero.mp h)
    subst hts
    rfl
  | succ n ih =>
    intro ts h
    by_cases hts : ts = []
    · subst hts
      rfl
    · rw [sliceBatches_cons bs hbs ts hts, List.flatten_cons,
          ih (ts.drop bs) ?_]
      · exact List.take_append_drop bs ts
      · have h1 : 0 < ts.length := List.length_pos.mpr hts
        simp only [List.length_drop]
        omega

theorem tally_foldl (outcome : String → Bool) (b : List String) (acc : Nat × Nat) :
    (b.foldl
        (fun acc2 uid => if outcome uid then (acc2.1 + 1, acc2.2) else (acc2.1, acc2.2 + 1))
        acc).1 +
      (b.foldl
        (fun acc2 uid => if outcome uid then (acc2.1 + 1, acc2.2) else (acc2.1, acc2.2 + 1))
        acc).2 =
      acc.1 + acc.2 + b.length := by
  induction b generalizing acc with
  | nil => simp
  | cons x b ih =>
    simp only [List.foldl_cons, List.length_cons]
    rw [ih]
    by_cases hx : outcome x <;> simp [hx] <;> omega

theorem dispatch_sum (outcome : String → Bool) (uids : List String) :
    (dispatch outcome uids).1 + (dispatch outcome uids).2 = uids.length := by
  unfold dispatch
  have key : ∀ (bl : List (List String)) (acc : Nat × Nat),
      (bl.foldl
          (fun acc batch =>
            batch.foldl
              (fun acc2 uid =>
                if outcome uid then (acc2.1 + 1, acc2.2) else (acc2.1, acc2.2 + 1))
              acc)
          acc).1 +
        (bl.foldl
          (fun acc batch =>
            batch.foldl
              (fun acc2 uid =>
                if outcome uid then (acc2.1 + 1, acc2.2) else (acc2.1, acc2.2 + 1))
              acc)
          acc).2 =
        acc.1 + acc.2 + bl.flatten.length := by
    intro bl
    induction bl with
    | nil =>
      intro acc
      simp
    | cons b bl ih =>
      intro acc
      simp only [List.foldl_cons, List.flatten_cons, List.length_append]
      rw [ih, tally_foldl]
      omega
  have h2 := key (sliceBatches 30 uids) (0, 0)
  rw [sliceBatches_flatten 30 (by omega) uids.length uids le_rfl] at h2
  simpa using h2

/-- C1: dispatch partitions the recipients into fixed-size batches of 30 —
65 recipients give exactly the batch sizes 30, 30, 5 — and every broadcast
that reaches the dispatch stage returns an aggregate whose success and
failure counts sum to the total recipient count, regardless of the
individual per-recipient outcomes. -/
theorem broadcast_batching_and_tally :
    (∀ uids : List String, uids.length = 65 →
      (sliceBatches 30 uids).map List.length = [30, 30, 5]) ∧
    (∀ (storage : List Project) (text : String) (target_apps : List String)
        (outcome : String → Bool) (r : BroadcastResult),
      (broadcast storage text target_apps outcome).response = Except.ok r →
      r.success + r.failed = r.total) := by
  constructor
  · intro uids h
    have h0 : uids ≠ [] := by
      intro e
      rw [e] at h
      simp at h
    rw [sliceBatches_cons 30 (by omega) uids h0]
    have hd1 : (uids.drop 30).length = 35 := by
      simp only [List.length_drop]
      omega
    have h1 : uids.drop 30 ≠ [] := by
      intro e
      rw [e] at hd1
      simp at hd1
    rw [sliceBatches_cons 30 (by omega) _ h1]
    have hd2 : ((uids.drop 30).drop 30).length = 5 := by
      simp only [List.length_drop]
      omega
    have h2 : (uids.drop 30).drop 30 ≠ [] := by
      intro e
      rw [e] at hd2
      simp at hd2
    rw [sliceBatches_cons 30 (by omega) _ h2]
    have hd3 : ((uids.drop 30).drop 30).drop 30 = [] := by
      apply List.eq_nil_of_length_eq_zero
      simp only [List.length_drop]
      omega
    rw [hd3, sliceBatches_nil]
    simp only [List.map_cons, List.map_nil, List.length_take, h, hd1, hd2]
    decide
  · intro storage text ta outcome r hr
    simp only [broadcast] at hr
    by_cases ht : text = ""
    · rw [if_pos ht] at hr
      simp at hr
    · rw [if_neg ht] at hr
      cases hd : (discover storage ta).1 with
      | none =>
        rw [hd] at hr
        simp at hr
      | some t =>
        rw [hd] at hr
        by_cases hu : (discover storage ta).2.isEmpty = true
        · rw [if_pos hu] at hr
          simp at hr
        · rw [if_neg hu] at hr
          have hresp : Except.ok
              (⟨(discover storage ta).2.length,
                (dispatch outcome (discover storage ta).2).1,
                (dispatch outcome (discover storage ta).2).2⟩ : BroadcastResult) =
              Except.ok r := hr
          cases Except.ok.inj hresp
          simpa using dispatch_sum outcome (discover storage ta).2

theorem broadcast_batching_and_tally_witness :
    (sliceBatches 30 ((List.range 65).map toString)).map List.length = [30, 30, 5] ∧
    (2 : Nat) + 0 = 2 :=
  ⟨broadcast_batching_and_tally.1 ((List.range 65).map toString) (by simp),
   broadcast_batching_and_tally.2 sampleStorage "hi" [] (fun _ => true) ⟨2, 2, 0⟩ rfl⟩

/-- C2: with nonempty message text, a discovery over the scope that finds no
token makes the call fail with the no-credential error, and one that finds a
token but no recipients makes it fail with the no-recipients error; in
either case no outbound request is issued and no history row is written. -/
theorem broadcast_discovery_failures (storage : List Project) (text : String)
    (target_apps : List String) (outcome : String → Bool) (ht : text ≠ "") :
    ((discover storage target_apps).1 = none →
      broadcast storage text target_apps outcome =
        ⟨Except.error BroadcastError.noToken, [], []⟩) ∧
    (∀ t, (discover storage target_apps).1 = some t →
      (discover storage target_apps).2 = [] →
      broadcast storage text target_apps outcome =
        ⟨Except.error BroadcastError.noUsers, [], []⟩) := by
  constructor
  · intro hd
    simp only [broadcast, if_neg ht, hd]
  · intro t hd hu
    simp only [broadcast, if_neg ht, hd, hu]
    simp

theorem broadcast_discovery_failures_witness :
    broadcast [] "hi" [] (fun _ => true) =
      ⟨Except.error BroadcastError.noToken, [], []⟩ ∧
    broadcast tokenOnlyStorage "hi" [] (fun _ => true) =
      ⟨Except.error BroadcastError.noUsers, [], []⟩ :=
  ⟨(broadcast_discovery_failures [] "hi" [] (fun _ => true) (by decide)).1 rfl,
   (broadcast_discovery_failures tokenOnlyStorage "hi" [] (fun _ => true) (by decide)).2
     sampleToken rfl rfl⟩

/-- C9 counterexample: the persisted history row of a successful broadcast
holds the fixed label "Global Broadcast", which is not an excerpt of the
message text ("Hello subscribers" here), and the row does not change when
the message text changes — no truncated excerpt of the message is
persisted. -/
theorem history_no_excerpt_counterexample :
    (broadcast sampleStorage "Hello subscribers" [] (fun _ => true)).history =
      [⟨"Global Broadcast", 2, 0⟩] ∧
    hasSeq "Global Broadcast".toList "Hello subscribers".toList = false ∧
    (broadcast sampleStorage "A completely different message" [] (fun _ => true)).history =
      (broadcast sampleStorage "Hello subscribers" [] (fun _ => true)).history :=
  ⟨rfl, by decide, rfl⟩

/-- C9 amended: every broadcast that reaches the dispatch stage persists
exactly one history row holding the constant label "Global Broadcast" — not
an excerpt of the message text — together with the success and failure
counts; the row's timestamp column is filled by the database default and is
outside this model. -/
theorem history_record_shape (storage : List Project) (text : String)
    (target_apps : List String) (outcome : String → Bool) (r : BroadcastResult)
    (h : (broadcast storage text target_apps outcome).response = Except.ok r) :
    (broadcast storage text target_apps outcome).history =
      [⟨"Global Broadcast", r.success, r.failed⟩] := by
  simp only [broadcast] at h ⊢
  by_cases ht : text = ""
  · rw [if_pos ht] at h
    simp at h
  · rw [if_neg ht] at h ⊢
    cases hd : (discover storage target_apps).1 with
    | none =>
      rw [hd] at h
      simp at h
    | some t =>
      rw [hd] at h
      by_cases hu : (discover storage target_apps).2.isEmpty = true
      · rw [if_pos hu] at h
        simp at h
      · rw [if_neg hu] at h ⊢
        have hresp : Except.ok
            (⟨(discover storage target_apps).2.length,
              (dispatch outcome (discover storage target_apps).2).1,
              (dispatch outcome (discover storage target_apps).2).2⟩ : BroadcastResult) =
            Except.ok r := h
        cases Except.ok.inj hresp
        rfl

theorem history_record_shape_witness :
    (broadcast sampleStorage "hi there" [] (fun _ => true)).history =
      [⟨"Global Broadcast", 2, 0⟩] :=
  history_record_shape sampleStorage "hi there" [] (fun _ => true) ⟨2, 2, 0⟩ rfl

theorem discover_foldl_scope (l : List Project) (sc : List String)
    (acc : Option String × List String)
    (h : ∀ p ∈ l, sc.contains p.name = true) :
    l.foldl (discoverStep sc) acc = l.foldl (discoverStep []) acc := by
  induction l generalizing acc with
  | nil => rfl
  | cons p l ih =>
    simp only [List.foldl_cons]
    have hstep : discoverStep sc acc p = discoverStep [] acc p := by
      unfold discoverStep
      have hc : sc.contains p.name = true := h p (List.mem_cons_self _ _)
      have h1 : ¬((!sc.isEmpty && !sc.contains p.name) = true) := by
        simp only [Bool.and_eq_true, Bool.not_eq_true', not_and]
        intro _
        simpa using hc
      have h2 : ¬((!List.isEmpty ([] : List String) &&
          !List.contains ([] : List String) p.name) = true) := by simp
      rw [if_neg h1, if_neg h2]
    rw [hstep]
    exact ih _ (fun q hq => h q (List.mem_cons_of_mem _ hq))

/-- C10: an empty scope list is "all deployments", not an empty selection:
discovery with the empty scope equals discovery with the scope naming every
entry of the storage listing, so every deployment under the storage root is
scanned and the call does not trivially fail with a discovery error. -/
theorem empty_scope_scans_all (storage : List Project) :
    discover storage [] = discover storage (storage.map Project.name) := by
  unfold discover
  refine (discover_foldl_scope storage (storage.map Project.name) (none, []) ?_).symm
  intro p hp
  simpa using List.mem_map_of_mem Project.name hp

end HostProMax
